import Mathlib

/-!
Shallow embedding of the dependency-graph engine (`src/dependency_graph.py`)
and verification of its specification claims.

The Python `while` loops are embedded as a step function iterated with an
explicitly computed fuel; a measure argument (proved below) shows the fuel is
always sufficient, so the fuel-exhaustion branch is dead code.
-/

namespace DepGraph

/-- A frame of the explicit DFS work stack, mirroring the Python tuple
`(package_id, depth, parent_chain, is_processing)`. -/
structure Frame where
  pkg : String
  depth : Nat
  chain : List String
  isProcessing : Bool
  deriving Repr, DecidableEq

/-- The dependency graph: `nodes` is the adjacency mapping
(`package_id -> Set[dependency_id]`, modelled as an insertion-ordered
association list with duplicate-free value lists, matching Python dict/set
semantics at the observation level), `cycles` the recorded cycle paths. -/
structure DependencyGraph where
  nodes : List (String × List String)
  cycles : List (List String)
  deriving Repr, DecidableEq

/-- Provider type `DependencyProvider`: `package_id -> [(dep_id, version), ...]`;
`none` models the provider raising an exception for that id. -/
def DependencyProvider := String → Option (List (String × String))

/-- Dictionary lookup in the adjacency mapping. -/
def lookupNode (nodes : List (String × List String)) (k : String) :
    Option (List String) :=
  (nodes.find? (fun e => e.1 == k)).map (fun e => e.2)

/-- Membership test `k in self.nodes`. -/
def isKey (nodes : List (String × List String)) (k : String) : Bool :=
  (lookupNode nodes k).isSome

/-- Lookup with default, `self.nodes.get(k, [])`. -/
def adjOf (nodes : List (String × List String)) (k : String) : List String :=
  (lookupNode nodes k).getD []

/-- Python `set.add`: insert if absent. -/
def setAdd (l : List String) (x : String) : List String :=
  if x ∈ l then l else l ++ [x]

/-- Edge insertion `self.nodes[src].add(dep)` (the key `src` is present when called). -/
def addEdge (nodes : List (String × List String)) (src dep : String) :
    List (String × List String) :=
  nodes.map (fun e => if e.1 == src then (e.1, setAdd e.2 dep) else e)

/-- Key initialization `if pkg_id not in self.nodes: self.nodes[pkg_id] = set()`. -/
def ensureKey (nodes : List (String × List String)) (k : String) :
    List (String × List String) :=
  if isKey nodes k then nodes else nodes ++ [(k, [])]

/-- Mutable state of `build_graph_dfs`: the graph being grown, the
`visited` and `path_set` sets, and the work stack (head = top). -/
structure BuildState where
  graph : DependencyGraph
  visited : List String
  pathSet : List String
  stack : List Frame
  deriving Repr, DecidableEq

/-- Result of one iteration of the `while stack:` loop: either the loop
exits (`finished (some g)` for normal exit, `finished none` when the
uncaught `list.index` `ValueError` propagates), or it continues. -/
inductive StepResult where
  | finished (result : Option DependencyGraph)
  | next (s : BuildState)
  deriving Repr, DecidableEq

/-- Python `parent_chain.index(pkg_id)`: index of the first occurrence
(meaningful when the element is present). -/
def firstIndexOf (l : List String) (x : String) : Nat :=
  (l.takeWhile (fun y => y != x)).length

/-- One iteration of the `while stack:` loop of `build_graph_dfs`,
in the exact order of the Python code: pop; depth check; backtracking
check; visited/cycle check; otherwise expand the node. -/
def stepBuild (provider : DependencyProvider) (maxDepth : Nat)
    (s : BuildState) : StepResult :=
  match s.stack with
  | [] => .finished (some s.graph)
  | f :: rest =>
    if f.depth > maxDepth then
      .next { s with stack := rest }
    else if f.isProcessing then
      .next { s with pathSet := s.pathSet.filter (fun x => x != f.pkg),
                     stack := rest }
    else if f.pkg ∈ s.visited then
      if f.pkg ∈ s.pathSet then
        if f.pkg ∈ f.chain then
          let cyclePath := f.chain.drop (firstIndexOf f.chain f.pkg) ++ [f.pkg]
          let newCycles :=
            if cyclePath ∈ s.graph.cycles then s.graph.cycles
            else s.graph.cycles ++ [cyclePath]
          .next { s with graph := { s.graph with cycles := newCycles },
                         stack := rest }
        else
          .finished none
      else
        .next { s with stack := rest }
    else
      let visited1 := f.pkg :: s.visited
      let pathSet1 := f.pkg :: s.pathSet
      let newChain := f.chain ++ [f.pkg]
      let nodes1 := ensureKey s.graph.nodes f.pkg
      let deps := (provider f.pkg).getD []
      let nodes2 := deps.foldl (fun ns d => addEdge ns f.pkg d.1) nodes1
      let children :=
        (deps.map (fun d => Frame.mk d.1 (f.depth + 1) newChain false)).reverse
      .next { graph := { s.graph with nodes := nodes2 },
              visited := visited1, pathSet := pathSet1,
              stack := children ++ Frame.mk f.pkg f.depth f.chain true :: rest }

/-- Worst-case iteration cost of exploring a list of dependencies with
remaining depth slack `k` (used only to compute a sufficient fuel /
prove termination of the work-stack loop). -/
def costList (w : String → Nat) : List (String × String) → Nat
  | [] => 0
  | d :: ds => w d.1 + costList w ds

/-- Worst-case iteration cost of an explore frame with depth slack `k`. -/
def cost (provider : DependencyProvider) : Nat → String → Nat
  | 0, _ => 1
  | k + 1, p => 2 + costList (cost provider k) ((provider p).getD [])

/-- Weight of one stack frame in the termination measure. -/
def frameWeight (provider : DependencyProvider) (maxDepth : Nat)
    (f : Frame) : Nat :=
  if f.isProcessing then 1 else cost provider (maxDepth + 1 - f.depth) f.pkg

/-- Termination measure of the work stack: every loop iteration strictly
decreases it (proved below), so it bounds the iteration count. -/
def stackMeasure (provider : DependencyProvider) (maxDepth : Nat)
    (stack : List Frame) : Nat :=
  (stack.map (frameWeight provider maxDepth)).sum

/-- The `while stack:` loop, iterated with fuel; `none` means the fuel ran
out (provably never happens for the fuel used by `build_graph_dfs`). -/
def buildIter (provider : DependencyProvider) (maxDepth : Nat) :
    Nat → BuildState → Option (Option DependencyGraph)
  | 0, _ => none
  | n + 1, s =>
    match stepBuild provider maxDepth s with
    | .finished r => some r
    | .next s' => buildIter provider maxDepth n s'

/-- Initial state of `build_graph_dfs` on a fresh graph:
`stack = [(root_package, 0, [], False)]`, everything else empty. -/
def initState (root : String) : BuildState :=
  ⟨⟨[], []⟩, [], [], [Frame.mk root 0 [] false]⟩

/-- The call `build_graph_dfs(root_package, dependency_provider, max_depth)` on a
fresh graph. Returns `none` exactly when an exception escapes the loop
(cycle recording), which is proved impossible. -/
def build_graph_dfs (root : String) (provider : DependencyProvider)
    (maxDepth : Nat := 100) : Option DependencyGraph :=
  match buildIter provider maxDepth
      (stackMeasure provider maxDepth (initState root).stack + 1)
      (initState root) with
  | some r => r
  | none => none

/-- Query `node_count()`. -/
def node_count (g : DependencyGraph) : Nat := g.nodes.length

/-- Query `edge_count()`. -/
def edge_count (g : DependencyGraph) : Nat :=
  (g.nodes.map (fun e => e.2.length)).sum

/-- Query `has_cycles()`. -/
def has_cycles (g : DependencyGraph) : Bool := g.cycles.length > 0

/-- Total number of neighbor entries in the adjacency mapping; bounds how
much a single loop iteration can grow a traversal work list. -/
def totalAdj (nodes : List (String × List String)) : Nat :=
  (nodes.map (fun e => e.2.length)).sum

/-- All ids appearing in the adjacency mapping, as a key or a neighbor. -/
def allIds (nodes : List (String × List String)) : List String :=
  nodes.foldr (fun e acc => e.1 :: (e.2 ++ acc)) []

/-- Fuel sufficient for the BFS loop of `get_all_dependencies`
(strictly dominates the loop measure, proved below). -/
def bfsFuel (nodes : List (String × List String)) : Nat :=
  (allIds nodes).length * (totalAdj nodes + 1) + 2

/-- The `while queue:` loop of `get_all_dependencies`: FIFO queue,
visited-set guard, neighbors of a newly visited node enqueued unless
already visited. -/
def bfsLoop (nodes : List (String × List String)) :
    Nat → List String → List String → List String
  | 0, visited, _ => visited
  | n + 1, visited, queue =>
    match queue with
    | [] => visited
    | current :: rest =>
      if current ∈ visited then bfsLoop nodes n visited rest
      else
        let visited1 := visited ++ [current]
        bfsLoop nodes n visited1
          (rest ++ (adjOf nodes current).filter (fun d => decide (d ∉ visited1)))

/-- Query `get_all_dependencies(package_id)`: empty for an unknown id, otherwise
the BFS closure with the package itself discarded at the end. -/
def get_all_dependencies (g : DependencyGraph) (package_id : String) :
    List String :=
  if isKey g.nodes package_id then
    (bfsLoop g.nodes (bfsFuel g.nodes) [] [package_id]).filter
      (fun x => x != package_id)
  else []

/-- The inner iterative DFS of `get_reverse_dependencies`: returns whether
`target` is reachable from the ids on the work stack. -/
def searchLoop (nodes : List (String × List String)) (target : String) :
    Nat → List String → List String → Bool
  | 0, _, _ => false
  | n + 1, visited, stack =>
    match stack with
    | [] => false
    | current :: rest =>
      if current ∈ visited then searchLoop nodes target n visited rest
      else if current = target then true
      else
        searchLoop nodes target n (current :: visited)
          (((adjOf nodes current).filter
              (fun d => decide (d ∉ current :: visited))).reverse ++ rest)

/-- Fuel sufficient for `searchLoop` (strictly dominates its measure). -/
def searchFuel (nodes : List (String × List String)) : Nat :=
  (allIds nodes).length * (totalAdj nodes + 1) + 2

/-- Query `get_reverse_dependencies(target_package)`: every key other than the
target from which the target is reachable by the iterative DFS. -/
def get_reverse_dependencies (g : DependencyGraph) (target_package : String) :
    List String :=
  (g.nodes.map (fun e => e.1)).filter
    (fun p => p != target_package &&
      searchLoop g.nodes target_package (searchFuel g.nodes) [] [p])

/-- Lexicographic order on code-point sequences: the order Python's
`sorted` uses on strings. -/
def charListLe : List Char → List Char → Bool
  | [], _ => true
  | _ :: _, [] => false
  | a :: as, b :: bs => a < b || (a == b && charListLe as bs)

/-- String order used by `sorted(...)`. -/
def strLe (a b : String) : Prop := charListLe a.data b.data = true

instance : DecidableRel strLe := fun _ _ => instDecidableEqBool _ _

/-- Python `sorted(...)` on a list of ids. -/
def sortStrings (l : List String) : List String := List.insertionSort strLe l

/-- Order of `sorted(self.nodes.items())`: dictionary keys are unique, so
only the key part is ever compared. -/
def pairLe (p q : String × List String) : Prop := strLe p.1 q.1

instance : DecidableRel pairLe := fun _ _ => instDecidableEqBool _ _

/-- Python `sorted(self.nodes.items())`. -/
def sortNodes (nodes : List (String × List String)) :
    List (String × List String) :=
  List.insertionSort pairLe nodes

/-- The edge declaration lines of `export_to_d2`: one `source -> target`
line per edge, sources sorted, then targets sorted. -/
def edgeLines (g : DependencyGraph) : List String :=
  ((sortNodes g.nodes).map (fun e =>
    (sortStrings e.2).map (fun dep => e.1 ++ " -> " ++ dep))).flatten

/-- The styling directive appended to each cycle edge. -/
def styleSuffix : String :=
  ": \x7bstyle.stroke: red; style.stroke-width: 3\x7d"

/-- Lines emitted for the `i`-th recorded cycle: a commented summary and
one styled declaration per consecutive cycle edge. -/
def cycleBlock (i : Nat) (cycle : List String) : List String :=
  ("# Cycle " ++ toString (i + 1) ++ ": " ++ String.intercalate " -> " cycle) ::
    (cycle.zip cycle.tail).map (fun e => e.1 ++ " -> " ++ e.2 ++ styleSuffix)

/-- The cycle annotation section of `export_to_d2`. -/
def cycleSection (cycles : List (List String)) : List String :=
  ["", "# Cycles detected:"] ++
    (cycles.enum.map (fun e => cycleBlock e.1 e.2)).flatten

/-- All lines of `export_to_d2`, before joining with newlines. -/
def export_to_d2_lines (g : DependencyGraph) : List String :=
  (["# Dependency Graph", "direction: down", ""] ++ edgeLines g) ++
    (if g.cycles.length > 0 then cycleSection g.cycles else [])

/-- Export `export_to_d2()`. -/
def export_to_d2 (g : DependencyGraph) : String :=
  String.intercalate "\n" (export_to_d2_lines g)

/-- A nonempty neighbor list means the id is a key, hence among `allIds`. -/
theorem mem_allIds_of_adjOf_ne_nil (nodes : List (String × List String))
    (pkg : String) (h : adjOf nodes pkg ≠ []) : pkg ∈ allIds nodes := by
  unfold adjOf lookupNode at h
  induction nodes with
  | nil => simp [List.find?] at h
  | cons e t ih =>
    by_cases he : e.1 == pkg
    · have : e.1 = pkg := by simpa using he
      simp [allIds, this]
    · simp only [List.find?, he] at h
      have := ih h
      simp [allIds] at this ⊢
      tauto

/-- Adding an id actually occurring in `l` to the exclusion set strictly
shrinks the filtered list. -/
theorem length_filter_lt_of_mem (l path : List String) (pkg : String)
    (hm : pkg ∈ l) (hp : pkg ∉ path) :
    (l.filter (fun x => decide (x ∉ pkg :: path))).length <
      (l.filter (fun x => decide (x ∉ path))).length := by
  induction l with
  | nil => simp at hm
  | cons a t ih =>
    by_cases ha : a = pkg
    · subst ha
      rw [List.filter_cons_of_neg (by simp),
        List.filter_cons_of_pos (by simpa using hp)]
      have hsub : List.Sublist (t.filter (fun x => decide (x ∉ a :: path)))
          (t.filter (fun x => decide (x ∉ path))) := by
        apply List.monotone_filter_right
        intro x hx
        simp only [decide_eq_true_eq] at hx ⊢
        intro hmem
        exact hx (List.mem_cons_of_mem _ hmem)
      simpa using Nat.lt_succ_of_le hsub.length_le
    · have hmt : pkg ∈ t := by
        rcases List.mem_cons.mp hm with h | h
        · exact absurd h.symm ha
        · exact h
      by_cases hap : a ∈ path
      · rw [List.filter_cons_of_neg (by simp [hap]),
          List.filter_cons_of_neg (by simp [hap])]
        exact ih hmt
      · rw [List.filter_cons_of_pos (by simp [List.mem_cons, hap, ha]),
          List.filter_cons_of_pos (by simp [hap])]
        simpa using Nat.succ_lt_succ (ih hmt)

/-- Number of graph ids not yet on the current render path: the measure
that each recursion step of `render_tree` strictly decreases. -/
def renderMeasure (nodes : List (String × List String)) (path : List String) :
    Nat :=
  ((allIds nodes).filter (fun x => decide (x ∉ path))).length

/-- Fuel sufficient for `render_tree` starting from the empty path
(strictly dominates `renderMeasure`; proved below). -/
def renderFuel (nodes : List (String × List String)) : Nat :=
  (allIds nodes).length + 1

/-- Helper `render_tree` of `format_as_ascii_tree`: prints the node with a
box-drawing connector, recursing into lexicographically sorted children,
with a `[CIRCULAR]` marker (and no recursion) for a node already on the
current render path. The recursion depth is bounded by the fuel, which is
proved sufficient below (`render_tree` is independent of any fuel
exceeding the measure). -/
def render_tree (nodes : List (String × List String)) :
    Nat → String → String → Bool → List String → List String
  | 0, _, _, _, _ => []
  | n + 1, pkg, pref, isLast, path =>
    if pkg ∈ path then
      [pref ++ (if isLast then "└── " else "├── ") ++ pkg ++ " [CIRCULAR]"]
    else
      let line := pref ++ (if isLast then "└── " else "├── ") ++ pkg
      let deps := sortStrings (adjOf nodes pkg)
      if deps.length = 0 then [line]
      else
        line ::
          (deps.enum.map (fun e =>
            render_tree nodes n e.2 (pref ++ (if isLast then "    " else "│   "))
              (decide (e.1 = deps.length - 1)) (pkg :: path))).flatten

/-- Renderer `format_as_ascii_tree(root_package)`. -/
def format_as_ascii_tree (g : DependencyGraph) (root_package : String) :
    String :=
  if isKey g.nodes root_package then
    String.intercalate "\n"
      (render_tree g.nodes (renderFuel g.nodes) root_package "" true [])
  else
    "Package \x27" ++ root_package ++ "\x27 not found in graph"

/-- The provider of the cycle example: edges `A→B`, `B→C`, `C→A` and no
others. -/
def cycleProvider : DependencyProvider := fun p =>
  if p = "A" then some [("B", "1.0")]
  else if p = "B" then some [("C", "1.0")]
  else if p = "C" then some [("A", "1.0")]
  else some []

/-- The provider of the diamond example: `A→{B,C}`, `B→D`, `C→D`,
`D→(none)`. -/
def diamondProvider : DependencyProvider := fun p =>
  if p = "A" then some [("B", "1.0"), ("C", "1.0")]
  else if p = "B" then some [("D", "1.0")]
  else if p = "C" then some [("D", "1.0")]
  else some []

/-- The provider of the linear chain example: `A→B→C→(none)`. -/
def chainProvider : DependencyProvider := fun p =>
  if p = "A" then some [("B", "1.0")]
  else if p = "B" then some [("C", "1.0")]
  else some []

/-- The graph `build_graph_dfs("A", cycleProvider, 100)` produces. -/
def cycleGraph : DependencyGraph :=
  ⟨[("A", ["B"]), ("B", ["C"]), ("C", ["A"])], [["A", "B", "C", "A"]]⟩

/-- The graph `build_graph_dfs("A", diamondProvider, 100)` produces. -/
def diamondGraph : DependencyGraph :=
  ⟨[("A", ["B", "C"]), ("C", ["D"]), ("D", []), ("B", ["D"])], []⟩

/-- The graph `build_graph_dfs("A", chainProvider, 100)` produces. -/
def chainGraph : DependencyGraph :=
  ⟨[("A", ["B"]), ("B", ["C"]), ("C", [])], []⟩

/-- The work-stack loop is about to expand node `p`: the top frame is an
explore frame for `p` within the depth bound and `p` is unvisited. -/
def expandsNode (maxDepth : Nat) (s : BuildState) (p : String) : Prop :=
  ∃ f rest, s.stack = f :: rest ∧ f.pkg = p ∧ f.isProcessing = false ∧
    f.depth ≤ maxDepth ∧ p ∉ s.visited

/-- The state after `n` iterations of the work-stack loop, `none` if the
loop already exited within `n` iterations. -/
def iterState (provider : DependencyProvider) (maxDepth : Nat) :
    Nat → BuildState → Option BuildState
  | 0, s => some s
  | n + 1, s =>
    match stepBuild provider maxDepth s with
    | .finished _ => none
    | .next s' => iterState provider maxDepth n s'

/-- Node ids with a pending backtrack frame on the work stack. -/
def btNodes (stack : List Frame) : List String :=
  (stack.filter (fun f => f.isProcessing)).map (fun f => f.pkg)

/-- Every explore frame's parent chain contains all nodes with a pending
backtrack frame strictly below it on the stack. -/
def BelowOK : List Frame → Prop
  | [] => True
  | f :: rest =>
    (f.isProcessing = false → ∀ x ∈ btNodes rest, x ∈ f.chain) ∧ BelowOK rest

/-- Invariant of the work-stack loop relating `path_set`, `visited` and
the stack: `path_set` is exactly the set of nodes with a pending backtrack
frame; those are pairwise distinct, all visited, all within the depth
bound; and parent chains dominate the backtrack frames below them. -/
def BuildInv (maxDepth : Nat) (s : BuildState) : Prop :=
  (∀ x, x ∈ s.pathSet ↔ x ∈ btNodes s.stack) ∧
  (∀ x ∈ s.pathSet, x ∈ s.visited) ∧
  (btNodes s.stack).Nodup ∧
  (∀ f ∈ s.stack, f.isProcessing = true → f.depth ≤ maxDepth) ∧
  BelowOK s.stack

/-- Reachability along recorded edges (reflexive-transitive closure of
the adjacency relation). -/
inductive Reaches (nodes : List (String × List String)) : String → String → Prop
  | refl (a : String) : Reaches nodes a a
  | step {a b c : String} : b ∈ adjOf nodes a → Reaches nodes b c →
      Reaches nodes a c

/-- Measure of the inner DFS of `get_reverse_dependencies`: strictly
decreases at every iteration (proved below), and is dominated by
`searchFuel` at the initial state. -/
def searchMeasure (nodes : List (String × List String))
    (visited stack : List String) : Nat :=
  ((allIds nodes).filter (fun x => decide (x ∉ visited))).length *
      (totalAdj nodes + 1) + stack.length

/-- A provider that raises for `B` (chain `A→B`, provider fails on `B`). -/
def provFailB : DependencyProvider := fun p =>
  if p = "A" then some [("B", "1.0")]
  else if p = "B" then none
  else some []

/-- The same provider with the failure replaced by zero dependencies. -/
def provEmptyB : DependencyProvider := fun p =>
  if p = "A" then some [("B", "1.0")]
  else if p = "B" then some []
  else some []

/-! ## Termination of the work-stack loop -/

theorem costList_eq_sum (w : String → Nat) (l : List (String × String)) :
    costList w l = (l.map (fun d => w d.1)).sum := by
  induction l with
  | nil => rfl
  | cons d ds ih => simp [costList, ih]

theorem cost_pos (provider : DependencyProvider) (k : Nat) (p : String) :
    0 < cost provider k p := by
  cases k with
  | zero => simp [cost]
  | succ k => simp [cost]

theorem frameWeight_pos (provider : DependencyProvider) (maxDepth : Nat)
    (f : Frame) : 0 < frameWeight provider maxDepth f := by
  unfold frameWeight
  split
  · exact Nat.one_pos
  · exact cost_pos _ _ _

/-- Every continuing iteration of the work-stack loop strictly decreases
the stack measure. -/
theorem stepBuild_next_measure (provider : DependencyProvider)
    (maxDepth : Nat) (s s' : BuildState)
    (h : stepBuild provider maxDepth s = .next s') :
    stackMeasure provider maxDepth s'.stack <
      stackMeasure provider maxDepth s.stack := by
  rcases hs : s.stack with _ | ⟨f, rest⟩
  · simp [stepBuild, hs] at h
  · simp only [stepBuild, hs] at h
    have hrest : stackMeasure provider maxDepth (f :: rest) =
        frameWeight provider maxDepth f +
          stackMeasure provider maxDepth rest := by
      simp [stackMeasure]
    by_cases hdepth : f.depth > maxDepth
    · rw [if_pos hdepth] at h
      cases h
      simp only [hrest]
      have := frameWeight_pos provider maxDepth f
      omega
    · rw [if_neg hdepth] at h
      by_cases hproc : f.isProcessing
      · rw [if_pos hproc] at h
        cases h
        simp only [hrest]
        have := frameWeight_pos provider maxDepth f
        omega
      · rw [if_neg hproc] at h
        by_cases hvis : f.pkg ∈ s.visited
        · rw [if_pos hvis] at h
          have hw := frameWeight_pos provider maxDepth f
          by_cases hpath : f.pkg ∈ s.pathSet
          · rw [if_pos hpath] at h
            by_cases hchain : f.pkg ∈ f.chain
            · rw [if_pos hchain] at h
              cases h
              simp only [hrest]
              omega
            · rw [if_neg hchain] at h
              exact absurd h (by simp)
          · rw [if_neg hpath] at h
            cases h
            simp only [hrest]
            omega
        · rw [if_neg hvis] at h
          cases h
          simp only [hrest]
          have hfw : frameWeight provider maxDepth f =
              2 + costList (cost provider (maxDepth - f.depth))
                ((provider f.pkg).getD []) := by
            unfold frameWeight
            rw [if_neg (by simp [hproc])]
            have hk : maxDepth + 1 - f.depth = (maxDepth - f.depth) + 1 := by
              omega
            rw [hk, cost]
          have hchild : stackMeasure provider maxDepth
              ((((provider f.pkg).getD []).map
                  (fun d => Frame.mk d.1 (f.depth + 1) (f.chain ++ [f.pkg])
                    false)).reverse ++
                Frame.mk f.pkg f.depth f.chain true :: rest) =
              costList (cost provider (maxDepth - f.depth))
                  ((provider f.pkg).getD []) +
                (1 + stackMeasure provider maxDepth rest) := by
            simp only [stackMeasure, List.map_append, List.sum_append,
              List.map_reverse, List.sum_reverse, List.map_map, List.map_cons,
              List.sum_cons]
            congr 1
            · rw [costList_eq_sum]
              congr 1
              apply List.map_congr_left
              intro d _
              unfold frameWeight
              simp only [Function.comp]
              rw [if_neg (by simp)]
              congr 1
              omega
          simp only [hrest, hchild, hfw]
          omega

/-- The fuel given to the loop is always sufficient: the loop exits within
`stackMeasure` iterations. -/
theorem buildIter_isSome (provider : DependencyProvider) (maxDepth : Nat) :
    ∀ (n : Nat) (s : BuildState),
      stackMeasure provider maxDepth s.stack < n →
      (buildIter provider maxDepth n s).isSome = true := by
  intro n
  induction n with
  | zero => intro s hs; omega
  | succ n ih =>
    intro s hs
    rw [buildIter]
    rcases hstep : stepBuild provider maxDepth s with r | s'
    · rfl
    · exact ih s' (by
        have := stepBuild_next_measure provider maxDepth s s' hstep
        omega)

/-! ## Claim theorems: concrete builds -/

set_option maxRecDepth 1000000 in
/-- C1: for the provider with edges A→B, B→C, C→A and no others, a single
`build_graph_dfs("A", provider, 100)` on a fresh graph yields
`node_count() = 3`, `edge_count() = 3`, `has_cycles() = true`, and the
cycles list contains exactly one entry, the sequence `[A, B, C, A]`. -/
theorem claim_C1 :
    build_graph_dfs "A" cycleProvider 100 = some cycleGraph ∧
    node_count cycleGraph = 3 ∧
    edge_count cycleGraph = 3 ∧
    has_cycles cycleGraph = true ∧
    cycleGraph.cycles = [["A", "B", "C", "A"]] := by
  decide

set_option maxRecDepth 1000000 in
/-- C2: for the diamond provider A→{B,C}, B→D, C→D, D→(none), a single
`build_graph_dfs("A", provider, 100)` on a fresh graph yields
`node_count() = 4`, `edge_count() = 4` (D is not double-expanded, yet both
edges B→D and C→D are recorded), and
`get_all_dependencies("A") = {B, C, D}`. -/
theorem claim_C2 :
    build_graph_dfs "A" diamondProvider 100 = some diamondGraph ∧
    node_count diamondGraph = 4 ∧
    edge_count diamondGraph = 4 ∧
    "D" ∈ adjOf diamondGraph.nodes "B" ∧
    "D" ∈ adjOf diamondGraph.nodes "C" ∧
    (get_all_dependencies diamondGraph "A").toFinset = {"B", "C", "D"} := by
  decide

/-! ## Single-expansion and depth-abandonment of the loop -/

theorem stepBuild_visited_mono {provider : DependencyProvider}
    {maxDepth : Nat} {s s' : BuildState}
    (h : stepBuild provider maxDepth s = .next s') :
    s.visited ⊆ s'.visited := by
  rcases hs : s.stack with _ | ⟨f, rest⟩
  · simp [stepBuild, hs] at h
  · simp only [stepBuild, hs] at h
    split_ifs at h with h1 h2 h3 h4 h5
    all_goals first
      | (cases h; exact fun x hx => hx)
      | (cases h; exact fun x hx => List.mem_cons_of_mem _ hx)
      | (exact absurd h (by simp))

theorem iterState_visited_mono {provider : DependencyProvider}
    {maxDepth : Nat} :
    ∀ {n : Nat} {s s' : BuildState},
      iterState provider maxDepth n s = some s' → s.visited ⊆ s'.visited := by
  intro n
  induction n with
  | zero =>
    intro s s' h
    simp only [iterState, Option.some.injEq] at h
    subst h
    exact fun x hx => hx
  | succ n ih =>
    intro s s' h
    rw [iterState] at h
    rcases hstep : stepBuild provider maxDepth s with r | s₁ <;> rw [hstep] at h
    · simp at h
    · exact fun x hx => ih h (stepBuild_visited_mono hstep hx)

theorem expandsNode_step {provider : DependencyProvider} {maxDepth : Nat}
    {s s' : BuildState} {p : String} (hx : expandsNode maxDepth s p)
    (h : stepBuild provider maxDepth s = .next s') : p ∈ s'.visited := by
  obtain ⟨f, rest, hs, hpkg, hproc, hdepth, hvis⟩ := hx
  simp only [stepBuild, hs] at h
  rw [if_neg (by omega), if_neg (by simp [hproc]),
    if_neg (by rw [hpkg]; exact hvis)] at h
  cases h
  exact hpkg ▸ List.mem_cons_self _ _

/-- C4: for every root, provider and `max_depth`, `build_graph_dfs`
terminates: the work-stack loop exits after finitely many iterations
(part 1), each node is expanded at most once — once a state is about to
expand `p`, no later state of the run expands `p` again (part 2), and a
frame whose depth exceeds `max_depth` is abandoned with the whole state
unchanged except for popping it: nothing is marked visited and no edge is
recorded from it (part 3). -/
theorem claim_C4 (provider : DependencyProvider) (maxDepth : Nat) :
    (∀ root, ∃ n,
      (buildIter provider maxDepth n (initState root)).isSome = true) ∧
    (∀ s p s₁ n s', expandsNode maxDepth s p →
      stepBuild provider maxDepth s = .next s₁ →
      iterState provider maxDepth n s₁ = some s' →
      ¬ expandsNode maxDepth s' p) ∧
    (∀ s f rest, s.stack = f :: rest → f.depth > maxDepth →
      stepBuild provider maxDepth s = .next { s with stack := rest }) := by
  refine ⟨?_, ?_, ?_⟩
  · intro root
    exact ⟨stackMeasure provider maxDepth (initState root).stack + 1,
      buildIter_isSome _ _ _ _ (Nat.lt_succ_self _)⟩
  · intro s p s₁ n s' hx hstep hiter hx'
    have h2 : p ∈ s'.visited :=
      iterState_visited_mono hiter (expandsNode_step hx hstep)
    obtain ⟨f, rest, hs, hpkg, hproc, hdepth, hvis⟩ := hx'
    exact hvis h2
  · intro s f rest hs hdepth
    simp only [stepBuild, hs]
    rw [if_pos hdepth]

set_option maxRecDepth 1000000 in
/-- Witness for C4 at concrete inputs: the loop for the cyclic provider
reaches an exit state; after the first step of the run from root `A` no
later state expands `A` again; a deep frame is popped with everything
else unchanged. -/
theorem claim_C4_witness :
    (∃ n, (buildIter cycleProvider 100 n (initState "A")).isSome = true) ∧
    (¬ expandsNode 100
      ⟨⟨[("A", ["B"])], []⟩, ["A"], ["A"],
        [Frame.mk "B" 1 ["A"] false, Frame.mk "A" 0 [] true]⟩ "A") ∧
    stepBuild cycleProvider 2 ⟨⟨[], []⟩, [], [], [Frame.mk "X" 5 [] false]⟩ =
      .next ⟨⟨[], []⟩, [], [], []⟩ := by
  refine ⟨(claim_C4 cycleProvider 100).1 "A", ?_, ?_⟩
  · exact (claim_C4 cycleProvider 100).2.1 (initState "A") "A"
      ⟨⟨[("A", ["B"])], []⟩, ["A"], ["A"],
        [Frame.mk "B" 1 ["A"] false, Frame.mk "A" 0 [] true]⟩ 0
      ⟨⟨[("A", ["B"])], []⟩, ["A"], ["A"],
        [Frame.mk "B" 1 ["A"] false, Frame.mk "A" 0 [] true]⟩
      ⟨Frame.mk "A" 0 [] false, [], rfl, rfl, rfl, by decide, by decide⟩
      (by decide) rfl
  · exact (claim_C4 cycleProvider 2).2.2
      ⟨⟨[], []⟩, [], [], [Frame.mk "X" 5 [] false]⟩
      (Frame.mk "X" 5 [] false) [] rfl (by decide)

/-! ## The cycle-recording branch never fails -/

theorem btNodes_cons (f : Frame) (rest : List Frame) :
    btNodes (f :: rest) =
      if f.isProcessing then f.pkg :: btNodes rest else btNodes rest := by
  rcases hb : f.isProcessing
  · simp [btNodes, List.filter_cons, hb]
  · simp [btNodes, List.filter_cons, hb]

theorem btNodes_append (l r : List Frame) :
    btNodes (l ++ r) = btNodes l ++ btNodes r := by
  simp [btNodes, List.filter_append]

theorem btNodes_eq_nil_of_explores {l : List Frame}
    (h : ∀ f ∈ l, f.isProcessing = false) : btNodes l = [] := by
  induction l with
  | nil => rfl
  | cons f rest ih =>
    rw [btNodes_cons, if_neg (by simp [h f (List.mem_cons_self f rest)]),
      ih (fun g hg => h g (List.mem_cons_of_mem f hg))]

theorem BelowOK_append_explores {cs rest : List Frame}
    (hexp : ∀ c ∈ cs, c.isProcessing = false)
    (hchain : ∀ c ∈ cs, ∀ x ∈ btNodes rest, x ∈ c.chain)
    (hrest : BelowOK rest) : BelowOK (cs ++ rest) := by
  induction cs with
  | nil => exact hrest
  | cons c cs ih =>
    refine ⟨?_, ih (fun d hd => hexp d (List.mem_cons_of_mem c hd))
      (fun d hd => hchain d (List.mem_cons_of_mem c hd))⟩
    intro _ x hx
    simp only [List.append_eq] at hx
    rw [btNodes_append,
      btNodes_eq_nil_of_explores
        (fun d hd => hexp d (List.mem_cons_of_mem c hd))] at hx
    exact hchain c (List.mem_cons_self c cs) x (by simpa using hx)

/-- One loop iteration preserves the stack invariant. -/
theorem stepBuild_inv {provider : DependencyProvider} {maxDepth : Nat}
    {s s' : BuildState} (hinv : BuildInv maxDepth s)
    (h : stepBuild provider maxDepth s = .next s') : BuildInv maxDepth s' := by
  obtain ⟨hps, hpv, hnd, hdep, hbel⟩ := hinv
  rcases hs : s.stack with _ | ⟨f, rest⟩
  · simp [stepBuild, hs] at h
  · rw [hs] at hps hnd hdep hbel
    simp only [stepBuild, hs] at h
    by_cases h1 : f.depth > maxDepth
    · rw [if_pos h1] at h
      cases h
      have hproc : f.isProcessing = false := by
        rcases hb : f.isProcessing
        · rfl
        · exact absurd (hdep f (List.mem_cons_self f rest) hb) (by omega)
      rw [btNodes_cons, if_neg (by simp [hproc])] at hps hnd
      exact ⟨hps, hpv, hnd,
        fun g hg => hdep g (List.mem_cons_of_mem f hg), hbel.2⟩
    · rw [if_neg h1] at h
      by_cases h2 : f.isProcessing
      · rw [if_pos h2] at h
        cases h
        rw [btNodes_cons, if_pos h2] at hps hnd
        have hfnotbt : f.pkg ∉ btNodes rest := (List.nodup_cons.mp hnd).1
        refine ⟨?_, ?_, (List.nodup_cons.mp hnd).2,
          fun g hg => hdep g (List.mem_cons_of_mem f hg), hbel.2⟩
        · intro x
          simp only [List.mem_filter, bne_iff_ne, decide_eq_true_eq]
          constructor
          · rintro ⟨hxp, hxne⟩
            rcases List.mem_cons.mp ((hps x).mp hxp) with hx | hx
            · exact absurd hx hxne
            · exact hx
          · intro hx
            refine ⟨(hps x).mpr (List.mem_cons_of_mem _ hx), ?_⟩
            intro hxe
            exact hfnotbt (hxe ▸ hx)
        · intro x hx
          exact hpv x (List.mem_filter.mp hx).1
      · rw [if_neg h2] at h
        have hproc : f.isProcessing = false := by
          rcases hb : f.isProcessing
          · rfl
          · exact absurd hb h2
        rw [btNodes_cons, if_neg (by simp [hproc])] at hps hnd
        by_cases h3 : f.pkg ∈ s.visited
        · rw [if_pos h3] at h
          by_cases h4 : f.pkg ∈ s.pathSet
          · rw [if_pos h4] at h
            by_cases h5 : f.pkg ∈ f.chain
            · rw [if_pos h5] at h
              cases h
              exact ⟨hps, hpv, hnd,
                fun g hg => hdep g (List.mem_cons_of_mem f hg), hbel.2⟩
            · rw [if_neg h5] at h
              exact absurd h (by simp)
          · rw [if_neg h4] at h
            cases h
            exact ⟨hps, hpv, hnd,
              fun g hg => hdep g (List.mem_cons_of_mem f hg), hbel.2⟩
        · rw [if_neg h3] at h
          cases h
          have hPnotPath : f.pkg ∉ s.pathSet := fun hp => h3 (hpv _ hp)
          have hPnotBt : f.pkg ∉ btNodes rest :=
            fun hb => hPnotPath ((hps _).mpr hb)
          have hbtchildren :
              btNodes ((((provider f.pkg).getD []).map
                (fun d => Frame.mk d.1 (f.depth + 1) (f.chain ++ [f.pkg])
                  false)).reverse) = [] := by
            apply btNodes_eq_nil_of_explores
            intro c hc
            rw [List.mem_reverse] at hc
            obtain ⟨d, _, hd⟩ := List.mem_map.mp hc
            rw [← hd]
          have hbtnew :
              btNodes ((((provider f.pkg).getD []).map
                  (fun d => Frame.mk d.1 (f.depth + 1) (f.chain ++ [f.pkg])
                    false)).reverse ++
                Frame.mk f.pkg f.depth f.chain true :: rest) =
              f.pkg :: btNodes rest := by
            rw [btNodes_append, hbtchildren, btNodes_cons]
            simp
          refine ⟨?_, ?_, ?_, ?_, ?_⟩
          · intro x
            rw [hbtnew]
            simp only [List.mem_cons]
            exact or_congr Iff.rfl (hps x)
          · intro x hx
            rcases List.mem_cons.mp hx with hx | hx
            · exact hx ▸ List.mem_cons_self _ _
            · exact List.mem_cons_of_mem _ (hpv x hx)
          · rw [hbtnew]
            exact List.nodup_cons.mpr ⟨hPnotBt, hnd⟩
          · intro g hg hgp
            rcases List.mem_append.mp hg with hg | hg
            · rw [List.mem_reverse] at hg
              obtain ⟨d, _, hd⟩ := List.mem_map.mp hg
              rw [← hd] at hgp
              simp at hgp
            · rcases List.mem_cons.mp hg with hg | hg
              · rw [hg]
                show f.depth ≤ maxDepth
                omega
              · exact hdep g (List.mem_cons_of_mem f hg) hgp
          · apply BelowOK_append_explores
            · intro c hc
              rw [List.mem_reverse] at hc
              obtain ⟨d, _, hd⟩ := List.mem_map.mp hc
              rw [← hd]
            · intro c hc x hx
              rw [List.mem_reverse] at hc
              obtain ⟨d, _, hd⟩ := List.mem_map.mp hc
              rw [btNodes_cons, if_pos rfl] at hx
              rw [← hd]
              simp only [List.mem_append, List.mem_singleton]
              rcases List.mem_cons.mp hx with hx | hx
              · exact Or.inr hx
              · exact Or.inl (hbel.1 hproc x hx)
            · exact ⟨by simp, hbel.2⟩

/-- Under the invariant, the loop never exits with the propagated
`ValueError`: whenever the cycle branch is reached, the node is in
the frame's parent chain. -/
theorem stepBuild_ne_finished_none {provider : DependencyProvider}
    {maxDepth : Nat} {s : BuildState} (hinv : BuildInv maxDepth s) :
    stepBuild provider maxDepth s ≠ .finished none := by
  obtain ⟨hps, hpv, hnd, hdep, hbel⟩ := hinv
  rcases hs : s.stack with _ | ⟨f, rest⟩
  · simp [stepBuild, hs]
  · rw [hs] at hps hbel
    simp only [stepBuild, hs]
    split_ifs with h1 h2 h3 h4 h5
    all_goals simp only [ne_eq, reduceCtorEq, not_false_eq_true]
    intro hcon
    apply h5
    have hbt : f.pkg ∈ btNodes (f :: rest) := (hps _).mp h4
    rw [btNodes_cons, if_neg (by simp [h2])] at hbt
    exact hbel.1 (by simpa using h2) _ hbt

theorem buildIter_no_none {provider : DependencyProvider} {maxDepth : Nat} :
    ∀ {n : Nat} {s : BuildState},
      BuildInv maxDepth s →
      buildIter provider maxDepth n s = some none → False := by
  intro n
  induction n with
  | zero => intro s _ h; simp [buildIter] at h
  | succ n ih =>
    intro s hinv h
    rw [buildIter] at h
    rcases hstep : stepBuild provider maxDepth s with r | s₁ <;> rw [hstep] at h
    · rcases r with _ | g
      · exact stepBuild_ne_finished_none hinv hstep
      · simp at h
    · exact ih (stepBuild_inv hinv hstep) h

theorem initState_inv (maxDepth : Nat) (root : String) :
    BuildInv maxDepth (initState root) := by
  refine ⟨?_, ?_, ?_, ?_, ?_⟩ <;> simp [initState, btNodes, BelowOK]

/-- C10: the cycle-detection branch can only be reached with the node on
the frame's parent chain (so `parent_chain.index` always succeeds), and
consequently `build_graph_dfs` never raises for any root, provider and
depth bound. -/
theorem claim_C10 :
    (∀ (root : String) (provider : DependencyProvider) (maxDepth : Nat),
      (build_graph_dfs root provider maxDepth).isSome = true) ∧
    (∀ (maxDepth : Nat) (s : BuildState) (f : Frame) (rest : List Frame),
      BuildInv maxDepth s → s.stack = f :: rest → f.isProcessing = false →
      f.pkg ∈ s.pathSet → f.pkg ∈ f.chain) := by
  constructor
  · intro root provider maxDepth
    unfold build_graph_dfs
    rcases hit : buildIter provider maxDepth
        (stackMeasure provider maxDepth (initState root).stack + 1)
        (initState root) with _ | r
    · have := buildIter_isSome provider maxDepth
        (stackMeasure provider maxDepth (initState root).stack + 1)
        (initState root) (Nat.lt_succ_self _)
      rw [hit] at this
      simp at this
    · rcases r with _ | g
      · exact absurd hit (fun hc => buildIter_no_none
          (initState_inv maxDepth root) hc)
      · simp
  · intro maxDepth s f rest hinv hs hproc hpath
    obtain ⟨hps, _, _, _, hbel⟩ := hinv
    rw [hs] at hps hbel
    have hbt : f.pkg ∈ btNodes (f :: rest) := (hps _).mp hpath
    rw [btNodes_cons, if_neg (by simp [hproc])] at hbt
    exact hbel.1 hproc _ hbt

/-- Witness for C10 at concrete inputs: build succeeds for the cyclic
provider, and in a concrete invariant-satisfying state whose top frame
revisits the open node `A`, that node is on the frame's chain. -/
theorem claim_C10_witness :
    (build_graph_dfs "A" cycleProvider 100).isSome = true ∧
    "A" ∈ (Frame.mk "A" 1 ["A"] false).chain := by
  constructor
  · exact claim_C10.1 "A" cycleProvider 100
  · exact claim_C10.2 1
      ⟨⟨[("A", ["A"])], []⟩, ["A"], ["A"],
        [Frame.mk "A" 1 ["A"] false, Frame.mk "A" 0 [] true]⟩
      (Frame.mk "A" 1 ["A"] false) [Frame.mk "A" 0 [] true]
      ⟨fun x => Iff.rfl, fun x hx => hx, by decide,
        by decide, by simp [BelowOK, btNodes]⟩
      rfl rfl (by decide)

/-! ## Reachability invariant of the build -/

theorem mem_setAdd {l : List String} {x d : String} :
    x ∈ setAdd l d ↔ x ∈ l ∨ x = d := by
  unfold setAdd
  split
  · next h =>
    constructor
    · exact Or.inl
    · rintro (hx | rfl)
      · exact hx
      · exact h
  · next h => simp

theorem self_mem_setAdd (l : List String) (d : String) : d ∈ setAdd l d :=
  mem_setAdd.mpr (Or.inr rfl)

theorem lookupNode_cons (e : String × List String)
    (t : List (String × List String)) (k : String) :
    lookupNode (e :: t) k =
      if e.1 == k then some e.2 else lookupNode t k := by
  cases he : (e.1 == k) <;> simp [lookupNode, List.find?, he]

theorem addEdge_cons (e : String × List String)
    (t : List (String × List String)) (s d : String) :
    addEdge (e :: t) s d =
      (if e.1 == s then (e.1, setAdd e.2 d) else e) :: addEdge t s d := rfl

theorem lookupNode_addEdge_self (N : List (String × List String))
    (s d : String) :
    lookupNode (addEdge N s d) s =
      (lookupNode N s).map (fun l => setAdd l d) := by
  induction N with
  | nil => rfl
  | cons e t ih =>
    rw [addEdge_cons]
    by_cases he : e.1 = s
    · simp [lookupNode_cons, he]
    · simp [lookupNode_cons, he, ih]

theorem lookupNode_addEdge_ne (N : List (String × List String))
    {s k : String} (d : String) (h : k ≠ s) :
    lookupNode (addEdge N s d) k = lookupNode N k := by
  induction N with
  | nil => rfl
  | cons e t ih =>
    rw [addEdge_cons]
    by_cases he : e.1 = s
    · have hsk : ¬ s = k := fun hc => h hc.symm
      simp [lookupNode_cons, he, hsk, ih]
    · by_cases hk : e.1 = k
      · simp [lookupNode_cons, he, hk, h]
      · simp [lookupNode_cons, he, hk, ih]

theorem adjOf_addEdge_subset (N : List (String × List String))
    (s d a : String) : adjOf N a ⊆ adjOf (addEdge N s d) a := by
  by_cases ha : a = s
  · subst ha
    unfold adjOf
    rw [lookupNode_addEdge_self]
    rcases lookupNode N a with _ | l
    · exact fun x hx => hx
    · exact fun x hx => mem_setAdd.mpr (Or.inl hx)
  · unfold adjOf
    rw [lookupNode_addEdge_ne N d ha]
    exact fun x hx => hx

theorem isKey_addEdge (N : List (String × List String)) (s d k : String) :
    isKey (addEdge N s d) k = isKey N k := by
  by_cases hk : k = s
  · subst hk
    rw [isKey, lookupNode_addEdge_self, isKey]
    rcases lookupNode N k with _ | l <;> rfl
  · rw [isKey, lookupNode_addEdge_ne N d hk, isKey]

theorem lookupNode_append (N M : List (String × List String)) (k : String) :
    lookupNode (N ++ M) k =
      (lookupNode N k).or (lookupNode M k) := by
  induction N with
  | nil => rfl
  | cons e t ih =>
    rw [List.cons_append, lookupNode_cons, lookupNode_cons]
    by_cases he : e.1 = k
    · simp [he]
    · simp [he, ih]

theorem adjOf_ensureKey_subset (N : List (String × List String))
    (k a : String) : adjOf N a ⊆ adjOf (ensureKey N k) a := by
  unfold ensureKey
  split
  · exact fun x hx => hx
  · unfold adjOf
    rw [lookupNode_append]
    rcases hl : lookupNode N a with _ | l
    · simp
    · simp [hl]

theorem isKey_ensureKey (N : List (String × List String)) {k : String}
    (h : isKey N k = true) (j : String) : isKey (ensureKey N j) k = true := by
  unfold ensureKey
  split
  · exact h
  · rw [isKey, lookupNode_append]
    rw [isKey] at h
    rcases hl : lookupNode N k with _ | l
    · rw [hl] at h
      simp at h
    · rfl

theorem isKey_ensureKey_self (N : List (String × List String)) (k : String) :
    isKey (ensureKey N k) k = true := by
  unfold ensureKey
  split
  · next h => exact h
  · rw [isKey, lookupNode_append]
    rcases hl : lookupNode N k with _ | l
    · simp [lookupNode, List.find?]
    · rfl

theorem mem_adjOf_addEdge_self {N : List (String × List String)} {s : String}
    (h : isKey N s = true) (d : String) : d ∈ adjOf (addEdge N s d) s := by
  unfold adjOf
  rw [lookupNode_addEdge_self]
  rw [isKey] at h
  rcases hl : lookupNode N s with _ | l
  · rw [hl] at h
    simp at h
  · exact self_mem_setAdd l d

/-- Facts about the edge-insertion fold of the expand branch: adjacency
only grows, keys are preserved, and every inserted dependency ends up in
the source's neighbor set. -/
theorem foldl_addEdge_facts (s : String)
    (deps : List (String × String)) :
    ∀ N : List (String × List String),
      (∀ a, adjOf N a ⊆ adjOf (deps.foldl (fun ns d => addEdge ns s d.1) N) a) ∧
      (∀ k, isKey (deps.foldl (fun ns d => addEdge ns s d.1) N) k = isKey N k) ∧
      (isKey N s = true →
        ∀ d ∈ deps, d.1 ∈ adjOf (deps.foldl (fun ns d => addEdge ns s d.1) N) s) := by
  induction deps with
  | nil => exact fun N => ⟨fun a x hx => hx, fun k => rfl, fun _ d hd => absurd hd (by simp)⟩
  | cons d ds ih =>
    intro N
    refine ⟨?_, ?_, ?_⟩
    · intro a x hx
      exact (ih (addEdge N s d.1)).1 a (adjOf_addEdge_subset N s d.1 a hx)
    · intro k
      rw [List.foldl_cons, (ih (addEdge N s d.1)).2.1 k, isKey_addEdge]
    · intro hkey e he
      rcases List.mem_cons.mp he with he | he
      · subst he
        exact (ih (addEdge N s e.1)).1 s (mem_adjOf_addEdge_self hkey e.1)
      · exact (ih (addEdge N s d.1)).2.2
          (by rw [isKey_addEdge]; exact hkey) e he

theorem allIds_append (N M : List (String × List String)) :
    allIds (N ++ M) = allIds N ++ allIds M := by
  induction N with
  | nil => rfl
  | cons e t ih => simp [allIds, List.foldr_cons, List.append_assoc] at ih ⊢; rw [ih]

theorem mem_allIds_iff {N : List (String × List String)} {x : String} :
    x ∈ allIds N ↔ ∃ e ∈ N, x = e.1 ∨ x ∈ e.2 := by
  induction N with
  | nil => simp [allIds]
  | cons e t ih =>
    simp only [allIds, List.foldr_cons] at ih ⊢
    simp only [List.mem_cons, List.mem_append, ih]
    constructor
    · rintro (rfl | h | ⟨f, hf, hx⟩)
      · exact ⟨e, Or.inl rfl, Or.inl rfl⟩
      · exact ⟨e, Or.inl rfl, Or.inr h⟩
      · exact ⟨f, Or.inr hf, hx⟩
    · rintro ⟨f, (rfl | hf), hx⟩
      · rcases hx with hx | hx
        · exact Or.inl hx
        · exact Or.inr (Or.inl hx)
      · exact Or.inr (Or.inr ⟨f, hf, hx⟩)

theorem mem_allIds_addEdge {N : List (String × List String)}
    {s d x : String} (h : x ∈ allIds (addEdge N s d)) :
    x ∈ allIds N ∨ x = d := by
  rw [mem_allIds_iff] at h
  obtain ⟨e, he, hx⟩ := h
  unfold addEdge at he
  obtain ⟨e0, he0, heq⟩ := List.mem_map.mp he
  by_cases hc : e0.1 == s
  · rw [if_pos hc] at heq
    subst heq
    rcases hx with hx | hx
    · exact Or.inl (mem_allIds_iff.mpr ⟨e0, he0, Or.inl hx⟩)
    · rcases mem_setAdd.mp hx with hx | hx
      · exact Or.inl (mem_allIds_iff.mpr ⟨e0, he0, Or.inr hx⟩)
      · exact Or.inr hx
  · rw [if_neg hc] at heq
    subst heq
    exact Or.inl (mem_allIds_iff.mpr ⟨e0, he0, hx⟩)

theorem mem_allIds_ensureKey {N : List (String × List String)}
    {k x : String} (h : x ∈ allIds (ensureKey N k)) :
    x ∈ allIds N ∨ x = k := by
  unfold ensureKey at h
  split at h
  · exact Or.inl h
  · rw [allIds_append] at h
    rcases List.mem_append.mp h with h | h
    · exact Or.inl h
    · simp [allIds] at h
      exact Or.inr h

theorem mem_allIds_foldl_addEdge {s x : String} :
    ∀ (deps : List (String × String)) (N : List (String × List String)),
      x ∈ allIds (deps.foldl (fun ns d => addEdge ns s d.1) N) →
      x ∈ allIds N ∨ ∃ d ∈ deps, x = d.1 := by
  intro deps
  induction deps with
  | nil => exact fun N h => Or.inl h
  | cons d ds ih =>
    intro N h
    rcases ih (addEdge N s d.1) h with h | ⟨e, he, hx⟩
    · rcases mem_allIds_addEdge h with h | h
      · exact Or.inl h
      · exact Or.inr ⟨d, List.mem_cons_self d ds, h⟩
    · exact Or.inr ⟨e, List.mem_cons_of_mem d he, hx⟩

theorem Reaches_mono {N M : List (String × List String)}
    (hsub : ∀ a, adjOf N a ⊆ adjOf M a) {x y : String}
    (h : Reaches N x y) : Reaches M x y := by
  induction h with
  | refl a => exact Reaches.refl a
  | step hb _ ih => exact Reaches.step (hsub _ hb) ih

theorem Reaches_snoc {N : List (String × List String)} {a b c : String}
    (h : Reaches N a b) (hc : c ∈ adjOf N b) : Reaches N a c := by
  induction h with
  | refl a => exact Reaches.step hc (Reaches.refl c)
  | step hb _ ih => exact Reaches.step hb (ih hc)

/-- The reachability invariant of the build: everything recorded in the
graph, and every id on the work stack, is reachable from the root. -/
def ReachInv (root : String) (s : BuildState) : Prop :=
  (∀ x ∈ allIds s.graph.nodes, Reaches s.graph.nodes root x) ∧
  (∀ f ∈ s.stack, Reaches s.graph.nodes root f.pkg)

theorem stepBuild_reachInv {provider : DependencyProvider} {maxDepth : Nat}
    {root : String} {s s' : BuildState} (hinv : ReachInv root s)
    (h : stepBuild provider maxDepth s = .next s') : ReachInv root s' := by
  obtain ⟨hids, hstk⟩ := hinv
  rcases hs : s.stack with _ | ⟨f, rest⟩
  · simp [stepBuild, hs] at h
  · rw [hs] at hstk
    simp only [stepBuild, hs] at h
    by_cases h1 : f.depth > maxDepth
    · rw [if_pos h1] at h
      cases h
      exact ⟨hids, fun g hg => hstk g (List.mem_cons_of_mem f hg)⟩
    · rw [if_neg h1] at h
      by_cases h2 : f.isProcessing
      · rw [if_pos h2] at h
        cases h
        exact ⟨hids, fun g hg => hstk g (List.mem_cons_of_mem f hg)⟩
      · rw [if_neg h2] at h
        by_cases h3 : f.pkg ∈ s.visited
        · rw [if_pos h3] at h
          by_cases h4 : f.pkg ∈ s.pathSet
          · rw [if_pos h4] at h
            by_cases h5 : f.pkg ∈ f.chain
            · rw [if_pos h5] at h
              cases h
              exact ⟨hids, fun g hg => hstk g (List.mem_cons_of_mem f hg)⟩
            · rw [if_neg h5] at h
              exact absurd h (by simp)
          · rw [if_neg h4] at h
            cases h
            exact ⟨hids, fun g hg => hstk g (List.mem_cons_of_mem f hg)⟩
        · rw [if_neg h3] at h
          cases h
          have hsub : ∀ a, adjOf s.graph.nodes a ⊆
              adjOf (((provider f.pkg).getD []).foldl
                (fun ns d => addEdge ns f.pkg d.1)
                (ensureKey s.graph.nodes f.pkg)) a := by
            intro a
            exact fun x hx =>
              (foldl_addEdge_facts f.pkg ((provider f.pkg).getD [])
                (ensureKey s.graph.nodes f.pkg)).1 a
                (adjOf_ensureKey_subset s.graph.nodes f.pkg a hx)
          have hroot_f : Reaches (((provider f.pkg).getD []).foldl
              (fun ns d => addEdge ns f.pkg d.1)
              (ensureKey s.graph.nodes f.pkg)) root f.pkg :=
            Reaches_mono hsub (hstk f (List.mem_cons_self f rest))
          have hkey : isKey (ensureKey s.graph.nodes f.pkg) f.pkg = true :=
            isKey_ensureKey_self s.graph.nodes f.pkg
          have hdeps : ∀ d ∈ (provider f.pkg).getD [],
              d.1 ∈ adjOf (((provider f.pkg).getD []).foldl
                (fun ns d => addEdge ns f.pkg d.1)
                (ensureKey s.graph.nodes f.pkg)) f.pkg :=
            (foldl_addEdge_facts f.pkg ((provider f.pkg).getD [])
              (ensureKey s.graph.nodes f.pkg)).2.2 hkey
          constructor
          · intro x hx
            rcases mem_allIds_foldl_addEdge _ _ hx with hx | ⟨d, hd, rfl⟩
            · rcases mem_allIds_ensureKey hx with hx | rfl
              · exact Reaches_mono hsub (hids x hx)
              · exact hroot_f
            · exact Reaches_snoc hroot_f (hdeps d hd)
          · intro g hg
            rcases List.mem_append.mp hg with hg | hg
            · rw [List.mem_reverse] at hg
              obtain ⟨d, hd, rfl⟩ := List.mem_map.mp hg
              exact Reaches_snoc hroot_f (hdeps d hd)
            · rcases List.mem_cons.mp hg with rfl | hg
              · exact hroot_f
              · exact Reaches_mono hsub (hstk g (List.mem_cons_of_mem f hg))

theorem stepBuild_finished_some {provider : DependencyProvider}
    {maxDepth : Nat} {s : BuildState} {g : DependencyGraph}
    (h : stepBuild provider maxDepth s = .finished (some g)) :
    g = s.graph := by
  rcases hs : s.stack with _ | ⟨f, rest⟩
  · simp only [stepBuild, hs, StepResult.finished.injEq, Option.some.injEq] at h
    exact h.symm
  · simp only [stepBuild, hs] at h
    split_ifs at h <;> simp at h

theorem stepBuild_isKey_mono {provider : DependencyProvider} {maxDepth : Nat}
    {s s' : BuildState} {k : String} (hk : isKey s.graph.nodes k = true)
    (h : stepBuild provider maxDepth s = .next s') :
    isKey s'.graph.nodes k = true := by
  rcases hs : s.stack with _ | ⟨f, rest⟩
  · simp [stepBuild, hs] at h
  · simp only [stepBuild, hs] at h
    by_cases h1 : f.depth > maxDepth
    · rw [if_pos h1] at h
      cases h
      exact hk
    · rw [if_neg h1] at h
      by_cases h2 : f.isProcessing
      · rw [if_pos h2] at h
        cases h
        exact hk
      · rw [if_neg h2] at h
        by_cases h3 : f.pkg ∈ s.visited
        · rw [if_pos h3] at h
          by_cases h4 : f.pkg ∈ s.pathSet
          · rw [if_pos h4] at h
            by_cases h5 : f.pkg ∈ f.chain
            · rw [if_pos h5] at h
              cases h
              exact hk
            · rw [if_neg h5] at h
              exact absurd h (by simp)
          · rw [if_neg h4] at h
            cases h
            exact hk
        · rw [if_neg h3] at h
          cases h
          show isKey (((provider f.pkg).getD []).foldl
            (fun ns d => addEdge ns f.pkg d.1)
            (ensureKey s.graph.nodes f.pkg)) k = true
          rw [(foldl_addEdge_facts f.pkg ((provider f.pkg).getD [])
            (ensureKey s.graph.nodes f.pkg)).2.1 k]
          exact isKey_ensureKey s.graph.nodes hk f.pkg

theorem buildIter_final {provider : DependencyProvider} {maxDepth : Nat}
    {root : String} :
    ∀ {n : Nat} {s : BuildState} {g : DependencyGraph},
      buildIter provider maxDepth n s = some (some g) →
      ReachInv root s → isKey s.graph.nodes root = true →
      (∀ x ∈ allIds g.nodes, Reaches g.nodes root x) ∧
        isKey g.nodes root = true := by
  intro n
  induction n with
  | zero => intro s g h; simp [buildIter] at h
  | succ n ih =>
    intro s g h hinv hkey
    rw [buildIter] at h
    rcases hstep : stepBuild provider maxDepth s with r | s₁ <;> rw [hstep] at h
    · simp only [Option.some.injEq] at h
      subst h
      obtain rfl := stepBuild_finished_some hstep
      exact ⟨hinv.1, hkey⟩
    · exact ih h (stepBuild_reachInv hinv hstep)
        (stepBuild_isKey_mono hkey hstep)

/-- C7: after a single `build_graph_dfs(root, provider, max_depth)` on a
fresh graph, every id appearing in the adjacency mapping (as a key or a
neighbor) is reachable from the root along recorded edges, and the root
is always a key of the mapping. -/
theorem claim_C7 (root : String) (provider : DependencyProvider)
    (maxDepth : Nat) (g : DependencyGraph)
    (h : build_graph_dfs root provider maxDepth = some g) :
    (∀ x ∈ allIds g.nodes, Reaches g.nodes root x) ∧
      isKey g.nodes root = true := by
  unfold build_graph_dfs at h
  rcases hit : buildIter provider maxDepth
      (stackMeasure provider maxDepth (initState root).stack + 1)
      (initState root) with _ | r <;> rw [hit] at h
  · simp at h
  · subst h
    rw [buildIter] at hit
    rcases hstep : stepBuild provider maxDepth (initState root)
        with r | s₁ <;> rw [hstep] at hit
    · have hnext : stepBuild provider maxDepth (initState root) =
          .next ⟨⟨((provider root).getD []).foldl
              (fun ns d => addEdge ns root d.1) (ensureKey [] root), []⟩,
            [root], [root],
            (((provider root).getD []).map
              (fun d => Frame.mk d.1 1 [root] false)).reverse ++
              [Frame.mk root 0 [] true]⟩ := by
        simp [stepBuild, initState]
      rw [hnext] at hstep
      exact absurd hstep (by simp)
    · have hinv₁ : ReachInv root s₁ := by
        apply stepBuild_reachInv (s := initState root) ?_ hstep
        constructor
        · intro x hx
          simp [initState, allIds] at hx
        · intro f hf
          simp only [initState, List.mem_singleton] at hf
          subst hf
          exact Reaches.refl root
      have hkey₁ : isKey s₁.graph.nodes root = true := by
        have hnext : stepBuild provider maxDepth (initState root) =
            .next ⟨⟨((provider root).getD []).foldl
                (fun ns d => addEdge ns root d.1) (ensureKey [] root), []⟩,
              [root], [root],
              (((provider root).getD []).map
                (fun d => Frame.mk d.1 1 [root] false)).reverse ++
                [Frame.mk root 0 [] true]⟩ := by
          simp [stepBuild, initState]
        rw [hnext] at hstep
        cases hstep
        rw [(foldl_addEdge_facts root ((provider root).getD [])
          (ensureKey [] root)).2.1 root]
        exact isKey_ensureKey_self [] root
      exact buildIter_final hit hinv₁ hkey₁

set_option maxRecDepth 1000000 in
/-- Witness for C7 at concrete inputs: in the graph built from the cyclic
provider, every recorded id is reachable from `A` and `A` is a key. -/
theorem claim_C7_witness :
    (∀ x ∈ allIds cycleGraph.nodes, Reaches cycleGraph.nodes "A" x) ∧
      isKey cycleGraph.nodes "A" = true :=
  claim_C7 "A" cycleProvider 100 cycleGraph (by decide)


/-! ## Provider failure is absorbed; queries are total -/

theorem costList_congr {w w' : String → Nat} (h : ∀ x, w x = w' x) :
    ∀ l : List (String × String), costList w l = costList w' l := by
  intro l
  induction l with
  | nil => rfl
  | cons d ds ih => simp [costList, h d.1, ih]

theorem cost_congr {prov prov' : DependencyProvider}
    (h : ∀ k, (prov k).getD [] = (prov' k).getD []) :
    ∀ (k : Nat) (p : String), cost prov k p = cost prov' k p := by
  intro k
  induction k with
  | zero => intro p; rfl
  | succ k ih =>
    intro p
    rw [cost, cost, h p, costList_congr (fun x => ih x)]

theorem stackMeasure_congr {prov prov' : DependencyProvider}
    {maxDepth : Nat} (h : ∀ k, (prov k).getD [] = (prov' k).getD [])
    (stack : List Frame) :
    stackMeasure prov maxDepth stack = stackMeasure prov' maxDepth stack := by
  unfold stackMeasure
  congr 1
  apply List.map_congr_left
  intro f _
  unfold frameWeight
  split
  · rfl
  · exact cost_congr h _ _

theorem stepBuild_congr {prov prov' : DependencyProvider} {maxDepth : Nat}
    (h : ∀ k, (prov k).getD [] = (prov' k).getD []) (s : BuildState) :
    stepBuild prov maxDepth s = stepBuild prov' maxDepth s := by
  rcases hs : s.stack with _ | ⟨f, rest⟩
  · simp [stepBuild, hs]
  · simp only [stepBuild, hs]
    rw [h f.pkg]

theorem buildIter_congr {prov prov' : DependencyProvider} {maxDepth : Nat}
    (h : ∀ k, (prov k).getD [] = (prov' k).getD []) :
    ∀ (n : Nat) (s : BuildState),
      buildIter prov maxDepth n s = buildIter prov' maxDepth n s := by
  intro n
  induction n with
  | zero => intro s; rfl
  | succ n ih =>
    intro s
    rw [buildIter, buildIter, stepBuild_congr h s]
    rcases stepBuild prov' maxDepth s with r | s'
    · rfl
    · exact ih s'

/-- C5: if the provider raises for some node `n`, `build_graph_dfs`
absorbs the failure: the resulting graph equals the one built with a
provider returning the empty list for `n` and agreeing elsewhere. -/
theorem claim_C5 (prov prov' : DependencyProvider) (n root : String)
    (maxDepth : Nat) (hfail : prov n = none) (hempty : prov' n = some [])
    (hagree : ∀ m, m ≠ n → prov' m = prov m) :
    build_graph_dfs root prov maxDepth = build_graph_dfs root prov' maxDepth := by
  have h : ∀ k, (prov k).getD [] = (prov' k).getD [] := by
    intro k
    by_cases hk : k = n
    · subst hk
      rw [hfail, hempty]
      rfl
    · rw [hagree k hk]
  unfold build_graph_dfs
  rw [stackMeasure_congr h, buildIter_congr h]

set_option maxRecDepth 1000000 in
/-- Witness for C5 at concrete providers: a provider failing on `B` builds
the same graph as one returning no dependencies for `B`; `B` ends up as a
key with an empty neighbor set and no failure marker. -/
theorem claim_C5_witness :
    build_graph_dfs "A" provFailB 100 = build_graph_dfs "A" provEmptyB 100 ∧
    build_graph_dfs "A" provFailB 100 =
      some ⟨[("A", ["B"]), ("B", [])], []⟩ := by
  constructor
  · apply claim_C5 provFailB provEmptyB "B" "A" 100 rfl rfl
    intro m hm
    simp only [provFailB, provEmptyB]
    by_cases hma : m = "A"
    · simp [hma]
    · simp [hma, hm]
  · decide

theorem isKey_of_mem {N : List (String × List String)}
    {e : String × List String} (he : e ∈ N) : isKey N e.1 = true := by
  induction N with
  | nil => simp at he
  | cons a t ih =>
    rw [isKey, lookupNode_cons]
    by_cases ha : a.1 = e.1
    · simp [ha]
    · rcases List.mem_cons.mp he with rfl | he2
      · exact absurd rfl ha
      · rw [if_neg (by simpa using ha)]
        exact ih he2

/-- C6: the queries are total over the id space: for an id that is not a
key of the adjacency mapping, `get_all_dependencies` returns the empty
set, and no `get_reverse_dependencies` result ever contains it. -/
theorem claim_C6 (g : DependencyGraph) (t : String)
    (h : isKey g.nodes t = false) :
    get_all_dependencies g t = [] ∧
      ∀ u, t ∉ get_reverse_dependencies g u := by
  constructor
  · simp [get_all_dependencies, h]
  · intro u ht
    unfold get_reverse_dependencies at ht
    have hmem := (List.mem_filter.mp ht).1
    obtain ⟨e, he, rfl⟩ := List.mem_map.mp hmem
    rw [isKey_of_mem he] at h
    exact absurd h (by simp)

set_option maxRecDepth 1000000 in
/-- Witness for C6 at a concrete unknown id on the diamond graph. -/
theorem claim_C6_witness :
    get_all_dependencies diamondGraph "NOPE" = [] ∧
      "NOPE" ∉ get_reverse_dependencies diamondGraph "D" := by
  have hc := claim_C6 diamondGraph "NOPE" (by decide)
  exact ⟨hc.1, hc.2 "D"⟩


/-! ## Correctness of the reverse-dependency search -/

theorem adjOf_length_le_totalAdj (N : List (String × List String))
    (k : String) : (adjOf N k).length ≤ totalAdj N := by
  induction N with
  | nil => simp [adjOf, lookupNode, List.find?, totalAdj]
  | cons e t ih =>
    unfold adjOf
    rw [lookupNode_cons]
    by_cases he : e.1 = k
    · rw [if_pos (by simpa using he)]
      simp [totalAdj]
    · rw [if_neg (by simpa using he)]
      have : totalAdj (e :: t) = e.2.length + totalAdj t := by
        simp [totalAdj]
      rw [this]
      unfold adjOf at ih
      omega

theorem reaches_closed {N : List (String × List String)} {t : String}
    {visited : List String}
    (hcl : ∀ v ∈ visited, ∀ d ∈ adjOf N v, d ∈ visited) {u : String}
    (hu : u ∈ visited) (hr : Reaches N u t) : t ∈ visited := by
  induction hr with
  | refl a => exact hu
  | step hb _ ih => exact ih (hcl _ hu _ hb)

theorem searchLoop_sound {N : List (String × List String)} {t : String} :
    ∀ {n : Nat} {visited stack : List String},
      searchLoop N t n visited stack = true →
      ∃ v ∈ stack, Reaches N v t := by
  intro n
  induction n with
  | zero =>
    intro visited stack h
    simp [searchLoop] at h
  | succ n ih =>
    intro visited stack h
    rcases stack with _ | ⟨c, rest⟩
    · simp [searchLoop] at h
    · simp only [searchLoop] at h
      by_cases hv : c ∈ visited
      · rw [if_pos hv] at h
        obtain ⟨v, hvr, hr⟩ := ih h
        exact ⟨v, List.mem_cons_of_mem c hvr, hr⟩
      · rw [if_neg hv] at h
        by_cases hc : c = t
        · exact ⟨c, List.mem_cons_self c rest, hc ▸ Reaches.refl c⟩
        · rw [if_neg hc] at h
          obtain ⟨v, hvr, hr⟩ := ih h
          rcases List.mem_append.mp hvr with hvp | hvrest
          · rw [List.mem_reverse] at hvp
            have hadj : v ∈ adjOf N c := (List.mem_filter.mp hvp).1
            exact ⟨c, List.mem_cons_self c rest, Reaches.step hadj hr⟩
          · exact ⟨v, List.mem_cons_of_mem c hvrest, hr⟩

theorem searchMeasure_skip (N : List (String × List String))
    (visited : List String) (c : String) (rest : List String) :
    searchMeasure N visited (c :: rest) =
      searchMeasure N visited rest + 1 := by
  simp [searchMeasure]
  omega

theorem searchMeasure_expand_lt {N : List (String × List String)}
    {visited : List String} {c : String} (hv : c ∉ visited)
    (rest : List String) :
    searchMeasure N (c :: visited)
        (((adjOf N c).filter
          (fun d => decide (d ∉ c :: visited))).reverse ++ rest) <
      searchMeasure N visited (c :: rest) := by
  by_cases hcU : c ∈ allIds N
  · have hA : ((allIds N).filter
        (fun x => decide (x ∉ c :: visited))).length + 1 ≤
        ((allIds N).filter (fun x => decide (x ∉ visited))).length :=
      length_filter_lt_of_mem (allIds N) visited c hcU hv
    have hp : (((adjOf N c).filter
        (fun d => decide (d ∉ c :: visited))).reverse ++ rest).length ≤
        totalAdj N + rest.length := by
      rw [List.length_append, List.length_reverse]
      have h1 := List.length_filter_le
        (fun d => decide (d ∉ c :: visited)) (adjOf N c)
      have h2 := adjOf_length_le_totalAdj N c
      omega
    unfold searchMeasure
    have hmul : (((allIds N).filter
        (fun x => decide (x ∉ c :: visited))).length + 1) *
          (totalAdj N + 1) ≤
        ((allIds N).filter (fun x => decide (x ∉ visited))).length *
          (totalAdj N + 1) :=
      Nat.mul_le_mul_right _ hA
    rw [Nat.succ_mul] at hmul
    simp only [List.length_cons]
    omega
  · have hadj : adjOf N c = [] := by
      by_contra hne
      exact hcU (mem_allIds_of_adjOf_ne_nil N c hne)
    have hfeq : (allIds N).filter (fun x => decide (x ∉ c :: visited)) =
        (allIds N).filter (fun x => decide (x ∉ visited)) := by
      apply List.filter_congr
      intro x hx
      have hxc : x ≠ c := fun hxe => hcU (hxe ▸ hx)
      simp [List.mem_cons, hxc]
    unfold searchMeasure
    rw [hfeq, hadj]
    simp

theorem searchLoop_complete {N : List (String × List String)} {t : String} :
    ∀ (n : Nat) (visited stack : List String),
      searchMeasure N visited stack < n →
      (∀ v ∈ visited, ∀ d ∈ adjOf N v, d ∈ visited ∨ d ∈ stack) →
      t ∉ visited →
      ∀ u, (u ∈ visited ∨ u ∈ stack) → Reaches N u t →
      searchLoop N t n visited stack = true := by
  intro n
  induction n with
  | zero =>
    intro visited stack hm
    exact absurd hm (Nat.not_lt_zero _)
  | succ n ih =>
    intro visited stack hm hclosed ht u hu hr
    rcases stack with _ | ⟨c, rest⟩
    · exfalso
      have hclosed' : ∀ v ∈ visited, ∀ d ∈ adjOf N v, d ∈ visited := by
        intro v hv d hd
        rcases hclosed v hv d hd with h | h
        · exact h
        · simp at h
      have hu' : u ∈ visited := by
        rcases hu with h | h
        · exact h
        · simp at h
      exact ht (reaches_closed hclosed' hu' hr)
    · simp only [searchLoop]
      by_cases hv : c ∈ visited
      · rw [if_pos hv]
        apply ih visited rest
        · rw [searchMeasure_skip] at hm
          omega
        · intro v hvv d hd
          rcases hclosed v hvv d hd with h | h
          · exact Or.inl h
          · rcases List.mem_cons.mp h with rfl | h
            · exact Or.inl hv
            · exact Or.inr h
        · exact ht
        · rcases hu with h | h
          · exact Or.inl h
          · rcases List.mem_cons.mp h with rfl | h
            · exact Or.inl hv
            · exact Or.inr h
        · exact hr
      · rw [if_neg hv]
        by_cases hc : c = t
        · rw [if_pos hc]
        · rw [if_neg hc]
          apply ih (c :: visited)
            (((adjOf N c).filter
              (fun d => decide (d ∉ c :: visited))).reverse ++ rest)
          · have := searchMeasure_expand_lt (N := N) hv rest
            omega
          · intro v hvv d hd
            rcases List.mem_cons.mp hvv with hvc | hvv
            · by_cases hdc : d ∈ c :: visited
              · exact Or.inl hdc
              · refine Or.inr (List.mem_append.mpr (Or.inl ?_))
                rw [List.mem_reverse, List.mem_filter]
                rw [hvc] at hd
                exact ⟨hd, by simpa using hdc⟩
            · rcases hclosed v hvv d hd with h | h
              · exact Or.inl (List.mem_cons_of_mem c h)
              · rcases List.mem_cons.mp h with rfl | h
                · exact Or.inl (List.mem_cons_self d visited)
                · exact Or.inr (List.mem_append.mpr (Or.inr h))
          · intro htc
            rcases List.mem_cons.mp htc with rfl | htc
            · exact hc rfl
            · exact ht htc
          · rcases hu with h | h
            · exact Or.inl (List.mem_cons_of_mem c h)
            · rcases List.mem_cons.mp h with rfl | h
              · exact Or.inl (List.mem_cons_self u visited)
              · exact Or.inr (List.mem_append.mpr (Or.inr h))
          · exact hr

theorem mem_get_reverse_dependencies_iff (g : DependencyGraph)
    (t p : String) :
    p ∈ get_reverse_dependencies g t ↔
      p ∈ g.nodes.map (fun e => e.1) ∧ p ≠ t ∧ Reaches g.nodes p t := by
  unfold get_reverse_dependencies
  rw [List.mem_filter]
  constructor
  · rintro ⟨hmem, hcond⟩
    rw [Bool.and_eq_true] at hcond
    obtain ⟨hne, hsearch⟩ := hcond
    obtain ⟨v, hvmem, hr⟩ := searchLoop_sound hsearch
    simp only [List.mem_singleton] at hvmem
    subst hvmem
    exact ⟨hmem, by simpa using hne, hr⟩
  · rintro ⟨hmem, hne, hr⟩
    refine ⟨hmem, ?_⟩
    rw [Bool.and_eq_true]
    refine ⟨by simpa using hne, ?_⟩
    apply searchLoop_complete (searchFuel g.nodes) [] [p] ?_ ?_ ?_ p
      (Or.inr (List.mem_singleton.mpr rfl)) hr
    · have hfe : (allIds g.nodes).filter
          (fun x => decide (x ∉ ([] : List String))) = allIds g.nodes := by
        apply List.filter_eq_self.mpr
        intro x _
        simp
      unfold searchMeasure searchFuel
      rw [hfe]
      simp
    · intro v hv
      simp at hv
    · simp

set_option maxRecDepth 1000000 in
/-- C3: a node `n` is in `get_reverse_dependencies(t)` exactly when `n` is
a key of the adjacency mapping, `n ≠ t`, and `t` is reachable from `n`
along outgoing edges; on the diamond graph the reverse dependencies of
`D` are `{A, B, C}` and those of `A` are empty. -/
theorem claim_C3 :
    (∀ (g : DependencyGraph) (t p : String),
      p ∈ get_reverse_dependencies g t ↔
        p ∈ g.nodes.map (fun e => e.1) ∧ p ≠ t ∧ Reaches g.nodes p t) ∧
    (get_reverse_dependencies diamondGraph "D").toFinset =
      {"A", "B", "C"} ∧
    get_reverse_dependencies diamondGraph "A" = [] := by
  refine ⟨mem_get_reverse_dependencies_iff, by decide, by decide⟩


/-! ## Sortedness of the rendering order -/

theorem charListLe_total : ∀ a b : List Char,
    charListLe a b = true ∨ charListLe b a = true := by
  intro a
  induction a with
  | nil => intro b; left; rfl
  | cons x as ih =>
    intro b
    rcases b with _ | ⟨y, bs⟩
    · right; rfl
    · rcases lt_trichotomy x y with h | h | h
      · left
        simp [charListLe, h]
      · subst h
        rcases ih bs with h | h
        · left
          simp [charListLe, h]
        · right
          simp [charListLe, h]
      · right
        simp [charListLe, h]

theorem charListLe_trans : ∀ a b c : List Char,
    charListLe a b = true → charListLe b c = true →
    charListLe a c = true := by
  intro a
  induction a with
  | nil => intro b c _ _; rfl
  | cons x as ih =>
    intro b c hab hbc
    rcases b with _ | ⟨y, bs⟩
    · simp [charListLe] at hab
    · rcases c with _ | ⟨z, cs⟩
      · simp [charListLe] at hbc
      · simp only [charListLe, Bool.or_eq_true, Bool.and_eq_true,
          decide_eq_true_eq, beq_iff_eq] at hab hbc ⊢
        rcases hab with h1 | ⟨h1, h1t⟩ <;> rcases hbc with h2 | ⟨h2, h2t⟩
        · exact Or.inl (lt_trans h1 h2)
        · exact Or.inl (h2 ▸ h1)
        · exact Or.inl (h1.symm ▸ h2)
        · exact Or.inr ⟨h1.trans h2, ih bs cs h1t h2t⟩

instance : IsTotal String strLe :=
  ⟨fun a b => charListLe_total a.data b.data⟩

instance : IsTrans String strLe :=
  ⟨fun a b c => charListLe_trans a.data b.data c.data⟩

instance : IsTotal (String × List String) pairLe :=
  ⟨fun a b => charListLe_total a.1.data b.1.data⟩

instance : IsTrans (String × List String) pairLe :=
  ⟨fun a b c => charListLe_trans a.1.data b.1.data c.1.data⟩

/-! ## Tree rendering -/

/-- Rendering does not depend on the fuel once it exceeds the measure:
the recursion terminates and the fuel chosen by `format_as_ascii_tree`
(`renderFuel`) is always sufficient. -/
theorem render_tree_fuel_congr (nodes : List (String × List String)) :
    ∀ (n m : Nat) (pkg pref : String) (isLast : Bool) (path : List String),
      renderMeasure nodes path < n → renderMeasure nodes path < m →
      render_tree nodes n pkg pref isLast path =
        render_tree nodes m pkg pref isLast path := by
  intro n
  induction n with
  | zero => intro m pkg pref isLast path hn; omega
  | succ n ih =>
    intro m pkg pref isLast path hn hm
    rcases m with _ | m
    · omega
    · simp only [render_tree]
      by_cases hp : pkg ∈ path
      · rw [if_pos hp, if_pos hp]
      · rw [if_neg hp, if_neg hp]
        by_cases hd : (sortStrings (adjOf nodes pkg)).length = 0
        · rw [if_pos hd, if_pos hd]
        · rw [if_neg hd, if_neg hd]
          have hlt : renderMeasure nodes (pkg :: path) <
              renderMeasure nodes path := by
            apply length_filter_lt_of_mem
            · apply mem_allIds_of_adjOf_ne_nil
              intro hnil
              apply hd
              unfold sortStrings
              have hlen :=
                (List.perm_insertionSort strLe (adjOf nodes pkg)).length_eq
              rw [hlen, hnil]
              rfl
            · exact hp
          congr 1
          congr 1
          apply List.map_congr_left
          intro e _
          apply ih
          · omega
          · omega

set_option maxRecDepth 1000000 in
/-- C8: `format_as_ascii_tree` terminates with bounded output on every
graph, cyclic ones included: a node already on the current render path is
printed once with the `[CIRCULAR]` marker and not expanded (part 1); the
output does not depend on the recursion fuel once it exceeds the measure,
so the recursion is bounded (part 2); children are rendered in the sorted
order produced by `sortStrings`, which sorts lexicographically (part 3);
and on the cyclic graph the rendering is a concrete four-line tree whose
last line carries the marker (part 4). -/
theorem claim_C8 :
    (∀ (nodes : List (String × List String)) (n : Nat)
        (pkg pref : String) (isLast : Bool) (path : List String),
      pkg ∈ path →
      render_tree nodes (n + 1) pkg pref isLast path =
        [pref ++ (if isLast then "└── " else "├── ") ++ pkg ++
          " [CIRCULAR]"]) ∧
    (∀ (nodes : List (String × List String)) (n m : Nat)
        (pkg pref : String) (isLast : Bool) (path : List String),
      renderMeasure nodes path < n → renderMeasure nodes path < m →
      render_tree nodes n pkg pref isLast path =
        render_tree nodes m pkg pref isLast path) ∧
    (∀ l : List String, List.Sorted strLe (sortStrings l) ∧
      (sortStrings l).Perm l) ∧
    format_as_ascii_tree cycleGraph "A" =
      "└── A\n    └── B\n        └── C\n            └── A [CIRCULAR]" := by
  refine ⟨?_, render_tree_fuel_congr, ?_, by decide⟩
  · intro nodes n pkg pref isLast path hp
    simp only [render_tree]
    rw [if_pos hp]
  · intro l
    exact ⟨List.sorted_insertionSort strLe l, List.perm_insertionSort strLe l⟩

set_option maxRecDepth 1000000 in
/-- Witness for C8 at concrete inputs: the circular-marker equation at a
concrete node on the path, and fuel-independence on the cyclic graph. -/
theorem claim_C8_witness :
    render_tree cycleGraph.nodes 1 "A" "" true ["A"] =
      ["└── A [CIRCULAR]"] ∧
    render_tree cycleGraph.nodes 7 "A" "" true [] =
      render_tree cycleGraph.nodes 50 "A" "" true [] := by
  constructor
  · exact claim_C8.1 cycleGraph.nodes 0 "A" "" true ["A"]
      (List.mem_singleton.mpr rfl)
  · exact claim_C8.2.1 cycleGraph.nodes 7 50 "A" "" true []
      (by decide) (by decide)

/-! ## Diagram export -/

theorem cycles_header_not_in_edgeLines (g : DependencyGraph) :
    "# Cycles detected:" ∉ edgeLines g := by
  intro h
  unfold edgeLines at h
  rw [List.mem_flatten] at h
  obtain ⟨l, hl, hmem⟩ := h
  obtain ⟨e, _, rfl⟩ := List.mem_map.mp hl
  obtain ⟨d, _, heq⟩ := List.mem_map.mp hmem
  have hgt : ('>' : Char) ∈ (e.1 ++ " -> " ++ d).data := by
    rw [String.data_append, String.data_append]
    refine List.mem_append.mpr (Or.inl (List.mem_append.mpr (Or.inr ?_)))
    decide
  rw [heq] at hgt
  exact absurd hgt (by decide)

theorem cycles_header_mem_iff (g : DependencyGraph) :
    "# Cycles detected:" ∈ export_to_d2_lines g ↔ g.cycles ≠ [] := by
  unfold export_to_d2_lines
  constructor
  · intro h
    rcases List.mem_append.mp h with h | h
    · rcases List.mem_append.mp h with h | h
      · exact absurd h (by decide)
      · exact absurd h (cycles_header_not_in_edgeLines g)
    · by_cases hlen : g.cycles.length > 0
      · intro hnil
        rw [hnil] at hlen
        simp at hlen
      · rw [if_neg hlen] at h
        simp at h
  · intro hne
    have hlen : g.cycles.length > 0 := by
      rcases hcyc : g.cycles with _ | ⟨c, cs⟩
      · exact absurd hcyc hne
      · simp
    rw [if_pos hlen]
    refine List.mem_append.mpr (Or.inr ?_)
    unfold cycleSection
    exact List.mem_append.mpr (Or.inl (by decide))

theorem edgeLines_perm (g : DependencyGraph) :
    (edgeLines g).Perm
      ((g.nodes.map (fun e => e.2.map (fun d => e.1 ++ " -> " ++ d))).flatten) := by
  unfold edgeLines
  have hinner : ∀ N : List (String × List String),
      ((N.map (fun e =>
        (sortStrings e.2).map (fun d => e.1 ++ " -> " ++ d))).flatten).Perm
      ((N.map (fun e => e.2.map (fun d => e.1 ++ " -> " ++ d))).flatten) := by
    intro N
    induction N with
    | nil => exact List.Perm.refl _
    | cons e t ih =>
      simp only [List.map_cons, List.flatten_cons]
      exact ((List.perm_insertionSort strLe e.2).map _).append ih
  have houter : (((sortNodes g.nodes).map (fun e =>
      (sortStrings e.2).map (fun d => e.1 ++ " -> " ++ d))).flatten).Perm
      (((g.nodes).map (fun e =>
        (sortStrings e.2).map (fun d => e.1 ++ " -> " ++ d))).flatten) :=
    ((List.perm_insertionSort pairLe g.nodes).map _).flatten
  exact houter.trans (hinner g.nodes)

set_option maxRecDepth 1000000 in
/-- C9: `export_to_d2` emits exactly one `source -> target` declaration
line per recorded edge (the edge lines are a permutation of one line per
edge), with sources ordered by `sortNodes` (sorted by source id) and
targets by `sortStrings` (sorted); the cycle annotation section appears
iff the cycles list is nonempty; for the chain A→B→C the export is the
header plus exactly `A -> B` and `B -> C` and no cycle section. -/
theorem claim_C9 :
    (∀ g : DependencyGraph,
      (edgeLines g).Perm
        ((g.nodes.map (fun e =>
          e.2.map (fun d => e.1 ++ " -> " ++ d))).flatten)) ∧
    (∀ g : DependencyGraph, List.Sorted pairLe (sortNodes g.nodes)) ∧
    (∀ l : List String, List.Sorted strLe (sortStrings l)) ∧
    (∀ g : DependencyGraph,
      "# Cycles detected:" ∈ export_to_d2_lines g ↔ g.cycles ≠ []) ∧
    export_to_d2_lines chainGraph =
      ["# Dependency Graph", "direction: down", "", "A -> B", "B -> C"] ∧
    export_to_d2 chainGraph =
      "# Dependency Graph\ndirection: down\n\nA -> B\nB -> C" := by
  exact ⟨edgeLines_perm,
    fun g => List.sorted_insertionSort pairLe g.nodes,
    fun l => List.sorted_insertionSort strLe l,
    cycles_header_mem_iff, by decide, by decide⟩


end DepGraph
